import Mathlib

/-
Verification of the revision-diff reconstruction and aggregation algorithm
of adaptdk/azure-devops-time-used (src/main.rs).

Shallow embedding choices:
  * f64 completed-work values are modelled as exact rationals.
  * chrono NaiveDate is modelled as Int (its order is a linear order on
    calendar dates); DateTime of Utc is modelled as a date together with a
    time-of-day component that date_naive drops.
  * the BTreeMap of daily sums is modelled as a key-sorted association
    list with the entry-and-modify-or-insert operation of the source.
  * stdout is modelled as a list of output records (header and detail
    lines, in emission order).
  * serde deserialization of a Revisions payload is modelled by parsing
    raw revisions whose required fields are Options: a missing
    System.ChangedDate or System.ChangedBy fails the whole list, as serde
    fails the whole HTTP-response parse, and the question-mark operator in
    main propagates that error out of the batch loop.
-/

namespace Devops

/-- Author of a change, from struct User in main.rs (uniqueName is email). -/
structure User where
  id : String
  display_name : String
  email : String
deriving DecidableEq

/-- A DateTime of Utc: the calendar date plus the time-of-day information
that date_naive discards. -/
structure DateTimeUtc where
  date : Int
  time_of_day : Nat
deriving DecidableEq

/-- chrono date_naive: truncation of a timestamp to its calendar date. -/
def DateTimeUtc.date_naive (d : DateTimeUtc) : Int := d.date

/-- struct Fields of main.rs: the deserialized revision fields. -/
structure Fields where
  changed_date : DateTimeUtc
  changed_by : User
  completed_work : Option ℚ
  title : Option String
deriving DecidableEq

/-- struct Revision of main.rs. -/
structure Revision where
  rev : Nat
  fields : Fields
deriving DecidableEq

/-- Raw revision fields as they arrive on the wire: the required fields
may be absent, in which case deserialization of the payload fails. -/
structure RawFields where
  changed_date : Option DateTimeUtc
  changed_by : Option User
  completed_work : Option ℚ
  title : Option String
deriving DecidableEq

/-- A raw revision entry of a Revisions payload. -/
structure RawRevision where
  rev : Nat
  fields : RawFields
deriving DecidableEq

/-- serde view of struct Fields: both System.ChangedDate and
System.ChangedBy are non-optional, so a missing one fails the parse. -/
def parseFields (f : RawFields) : Except String Fields :=
  match f.changed_date with
  | none => Except.error ("missing field System.ChangedDate")
  | some d =>
    match f.changed_by with
    | none => Except.error ("missing field System.ChangedBy")
    | some u => Except.ok ⟨d, u, f.completed_work, f.title⟩

/-- Parse one raw revision. -/
def parseRevision (r : RawRevision) : Except String Revision :=
  match parseFields r.fields with
  | Except.error e => Except.error e
  | Except.ok fs => Except.ok ⟨r.rev, fs⟩

/-- serde deserialization of the value array of a Revisions payload:
all-or-nothing, the first malformed entry fails the whole list. -/
def parseRevisions : List RawRevision → Except String (List Revision)
  | [] => Except.ok []
  | r :: rest =>
    match parseRevision r with
    | Except.error e => Except.error e
    | Except.ok rv =>
      match parseRevisions rest with
      | Except.error e => Except.error e
      | Except.ok rvs => Except.ok (rv :: rvs)

/-- One record printed to stdout: a work-item header line or an attributed
detail line (date, author, absolute completed work, delta). -/
inductive OutRec where
  | header (work_item_id : Nat) (title : String)
  | detail (date : Int) (changed_by : User) (completed_work : ℚ) (diff : ℚ)
deriving DecidableEq

/-- Whether an output record is a detail line. -/
def OutRec.isDetail : OutRec → Bool
  | OutRec.detail _ _ _ _ => true
  | _ => false

/-- The BTreeMap from NaiveDate to f64 of main.rs, as a key-sorted
association list. -/
abbrev SumsMap := List (Int × ℚ)

/-- The source operation sums.entry(date).and_modify(add diff).or_insert(diff)
on the key-ordered map. -/
def addDiff : SumsMap → Int → ℚ → SumsMap
  | [], d, q => [(d, q)]
  | (d', v) :: rest, d, q =>
    if d < d' then (d, q) :: (d', v) :: rest
    else if d = d' then (d', v + q) :: rest
    else (d', v) :: addDiff rest d q

/-- The mutable state of the per-work-item loop in main: the global sums
map, the stdout transcript, the printed_header flag and the running
baseline last_completed_work. -/
structure LoopState where
  sums : SumsMap
  out : List OutRec
  printed_header : Bool
  last_completed_work : ℚ
deriving DecidableEq

/-- The body of the inner for-loop of main, for one revision: skip when no
completed work is present; otherwise compute the diff against the running
baseline, unconditionally advance the baseline, then discard on zero diff,
author mismatch or out-of-window date; a surviving revision prints the
header once, accumulates the diff for its date and prints a detail line. -/
def processRevision (user : String) (lo hi : Int) (work_item_id : Nat)
    (s : LoopState) (revision : Revision) : LoopState :=
  match revision.fields.completed_work with
  | none => s
  | some completed_work =>
    let diff := completed_work - s.last_completed_work
    let s1 : LoopState := { s with last_completed_work := completed_work }
    if diff = 0 then s1
    else if revision.fields.changed_by.email ≠ user then s1
    else
      let date := revision.fields.changed_date.date_naive
      if date < lo ∨ date > hi then s1
      else
        let s2 : LoopState :=
          if s1.printed_header then s1
          else { s1 with
                 out := s1.out ++ [OutRec.header work_item_id (revision.fields.title.getD ( ""))],
                 printed_header := true }
        let s3 : LoopState := { s2 with sums := addDiff s2.sums date diff }
        { s3 with
          out := s3.out ++ [OutRec.detail date revision.fields.changed_by completed_work diff] }

/-- The inner for-loop of main over the revision list of one work item. -/
def processRevs (user : String) (lo hi : Int) (work_item_id : Nat)
    (s : LoopState) (revs : List Revision) : LoopState :=
  revs.foldl (processRevision user lo hi work_item_id) s

/-- One iteration of the outer for-loop of main: fresh printed_header flag
and baseline, sums and stdout carried over. -/
def processItem (user : String) (lo hi : Int)
    (acc : SumsMap × List OutRec) (item : Nat × List Revision) : SumsMap × List OutRec :=
  let s := processRevs user lo hi item.1 ⟨acc.1, acc.2, false, 0⟩ item.2
  (s.sums, s.out)

/-- The outer for-loop of main over all work items, starting from the
empty sums map and an empty stdout transcript. -/
def processAll (user : String) (lo hi : Int)
    (items : List (Nat × List Revision)) : SumsMap × List OutRec :=
  items.foldl (processItem user lo hi) ([], [])

/-- An external HTTP call issued by main: the wiql work-item query or a
revisions fetch for one work item. -/
inductive ExtCall where
  | wiql (lo hi : Int)
  | revs (work_item_id : Nat)
deriving DecidableEq

/-- The outer loop of main with the fallible revision fetches made
explicit: each work item issues its revisions call, then deserializes; a
deserialization failure propagates through the question-mark operator,
aborting the loop, discarding the accumulated sums (never printed) and
skipping the remaining work items. -/
def processBatch (user : String) (lo hi : Int) :
    List (Nat × List RawRevision) → SumsMap → List OutRec →
    List ExtCall × Except String (SumsMap × List OutRec)
  | [], sums, out => ([], Except.ok (sums, out))
  | (work_item_id, raws) :: rest, sums, out =>
    match parseRevisions raws with
    | Except.error e => ([ExtCall.revs work_item_id], Except.error e)
    | Except.ok revs =>
      let s := processRevs user lo hi work_item_id ⟨sums, out, false, 0⟩ revs
      let p := processBatch user lo hi rest s.sums s.out
      (ExtCall.revs work_item_id :: p.1, p.2)

/-- main after argument parsing: resolve the window (given bounds, or the
current week as default), issue the wiql query unconditionally, then fetch
and process every returned work item. The server responses are oracles
(the id list for the query, a raw revision list per id). Returns the trace
of external calls and the final result. -/
def runProgram (argFrom argTo : Option Int) (weekLo weekHi : Int) (user : String)
    (queryResult : List Nat) (histories : Nat → List RawRevision) :
    List ExtCall × Except String (SumsMap × List OutRec) :=
  let lo := argFrom.getD weekLo
  let hi := argTo.getD weekHi
  let p := processBatch user lo hi (queryResult.map (fun i => (i, histories i))) [] []
  (ExtCall.wiql lo hi :: p.1, p.2)

/-- The filter chain of the loop body, as a predicate: a revision survives
iff it carries a completed-work value whose diff against the running
baseline is nonzero, its author email equals the target user, and its
truncated date is inside the window. -/
def survives (user : String) (lo hi : Int) (last : ℚ) (r : Revision) : Bool :=
  match r.fields.completed_work with
  | none => false
  | some cw =>
    decide (¬ cw - last = 0) && decide (r.fields.changed_by.email = user) &&
      !(decide (r.fields.changed_date.date_naive < lo) ||
        decide (r.fields.changed_date.date_naive > hi))

/-- The baseline after folding a revision: its completed-work value when
present, the previous baseline otherwise. -/
def nextLast (last : ℚ) (r : Revision) : ℚ :=
  (r.fields.completed_work).getD last

/-- The completed-work value of the most recent revision carrying one,
starting from a given baseline. -/
def lastPresentFrom (b : ℚ) (l : List Revision) : ℚ :=
  l.foldl nextLast b

/-- The diffs the loop computes over revisions carrying a completed-work
value, with the author and date filters ignored and zero diffs discarded. -/
def unfilteredDeltas (b : ℚ) : List Revision → List ℚ
  | [] => []
  | r :: rest =>
    match r.fields.completed_work with
    | none => unfilteredDeltas b rest
    | some cw =>
      if cw - b = 0 then unfilteredDeltas cw rest
      else (cw - b) :: unfilteredDeltas cw rest

/-- Whether some revision of the list survives the filter chain, threading
the running baseline. -/
def anySurvivor (user : String) (lo hi : Int) (b : ℚ) : List Revision → Bool
  | [] => false
  | r :: rest => survives user lo hi b r || anySurvivor user lo hi (nextLast b r) rest

/-- The first revision of the list that survives the filter chain,
threading the running baseline: the revision at which the code prints the
header. -/
def firstSurvivor (user : String) (lo hi : Int) (b : ℚ) : List Revision → Option Revision
  | [] => none
  | r :: rest =>
    if survives user lo hi b r then some r
    else firstSurvivor user lo hi (nextLast b r) rest

/-- The most recent known title of a revision list, following the words of
the spec: the title carried by the most recent revision that carries one.
Stated only to compare the emitted header against the claim. -/
def mostRecentKnownTitle (l : List Revision) : Option String :=
  l.foldl (fun acc r =>
    match r.fields.title with
    | some t => some t
    | none => acc) none

/-- The date-and-diff contributions of the surviving revisions of a list,
threading the running baseline. -/
def contribs (user : String) (lo hi : Int) (b : ℚ) : List Revision → List (Int × ℚ)
  | [] => []
  | r :: rest =>
    match r.fields.completed_work with
    | none => contribs user lo hi b rest
    | some cw =>
      if survives user lo hi b r then
        (r.fields.changed_date.date_naive, cw - b) :: contribs user lo hi cw rest
      else contribs user lo hi cw rest

/-- Apply a list of date-and-diff contributions to a sums map. -/
def applyAdds (m : SumsMap) (ps : List (Int × ℚ)) : SumsMap :=
  ps.foldl (fun acc p => addDiff acc p.1 p.2) m

/-- Sample author used by concrete witnesses. -/
def ada : User := ⟨("id-ada"), ("Ada"), ("ada@example.com")⟩

/-- Second sample author used by concrete witnesses. -/
def bob : User := ⟨("id-bob"), ("Bob"), ("bob@example.com")⟩

/-- Build a sample revision with a fixed nonzero time-of-day. -/
def mkRevision (n : Nat) (d : Int) (u : User) (cw : Option ℚ) (t : Option String) : Revision :=
  ⟨n, ⟨⟨d, 9⟩, u, cw, t⟩⟩

/-- Sample revision whose completed work equals the baseline of s5. -/
def revZero : Revision := mkRevision 1 3 ada (some 5) none

/-- Sample loop state with baseline 5. -/
def s5 : LoopState := ⟨[], [], false, 5⟩

/-- Sample fresh loop state. -/
def s0 : LoopState := ⟨[], [], false, 0⟩

/-- Sample revision: ada sets completed work to 5 on date 3. -/
def revA : Revision := mkRevision 1 3 ada (some 5) (some ("Task A"))

/-- Sample revision: ada lowers completed work to 3 on date 4. -/
def revB : Revision := mkRevision 2 4 ada (some 3) none

/-- Sample revision: bob sets completed work to 2 on date 2. -/
def revC : Revision := mkRevision 1 2 bob (some 2) none

/-- Sample raw revision with every required field present. -/
def rawGood : RawRevision := ⟨1, ⟨some ⟨3, 9⟩, some ada, some 5, some ("Task A")⟩⟩

/-- Sample raw revision missing the required System.ChangedBy field. -/
def rawBad : RawRevision := ⟨2, ⟨some ⟨3, 9⟩, none, some 6, none⟩⟩

/-- Sample revision-history oracle returning one well-formed revision. -/
def exHist : Nat → List RawRevision := fun _ => [rawGood]

/-- Sample revision that carries a title but no completed work. -/
def rT1 : Revision := mkRevision 1 3 ada none (some ("Task T"))

/-- Sample surviving revision that carries completed work but no title. -/
def rT2 : Revision := mkRevision 2 4 ada (some 5) none

/-- The filter chain evaluates to true exactly when the diff is nonzero,
the author matches and the truncated date is inside the inclusive window. -/
theorem survives_iff (user : String) (lo hi : Int) (last : ℚ) (r : Revision) (cw : ℚ)
    (h : r.fields.completed_work = some cw) :
    survives user lo hi last r = true ↔
      (cw - last ≠ 0 ∧ r.fields.changed_by.email = user ∧
        lo ≤ r.fields.changed_date.date_naive ∧ r.fields.changed_date.date_naive ≤ hi) := by
  simp only [survives, h, Bool.and_eq_true, decide_eq_true_eq, Bool.not_eq_true',
    Bool.or_eq_false_iff, decide_eq_false_iff_not, not_lt]
  constructor
  · rintro ⟨⟨h1, h2⟩, h3, h4⟩
    exact ⟨h1, h2, h3, h4⟩
  · rintro ⟨h1, h2, h3, h4⟩
    exact ⟨⟨h1, h2⟩, h3, h4⟩

/-- A revision without a completed-work value leaves the whole state
untouched. -/
theorem processRevision_none (user : String) (lo hi : Int) (work_item_id : Nat)
    (s : LoopState) (r : Revision) (h : r.fields.completed_work = none) :
    processRevision user lo hi work_item_id s r = s := by
  simp [processRevision, h]

/-- A filtered-out revision carrying a completed-work value only advances
the baseline. -/
theorem processRevision_skip (user : String) (lo hi : Int) (work_item_id : Nat)
    (s : LoopState) (r : Revision) (cw : ℚ) (h : r.fields.completed_work = some cw)
    (hns : survives user lo hi s.last_completed_work r = false) :
    processRevision user lo hi work_item_id s r = { s with last_completed_work := cw } := by
  by_cases h1 : cw - s.last_completed_work = 0
  · simp [processRevision, h, h1]
  · by_cases h2 : r.fields.changed_by.email = user
    · by_cases h3 : r.fields.changed_date.date_naive < lo ∨ r.fields.changed_date.date_naive > hi
      · simp [processRevision, h, h1, h2, h3]
      · exact absurd ((survives_iff user lo hi s.last_completed_work r cw h).mpr
          ⟨h1, h2, by omega, by omega⟩) (by simp [hns])
    · simp [processRevision, h, h1, h2]

/-- A surviving revision advances the baseline, accumulates its diff for
its truncated date, prints the header if not yet printed, and prints a
detail line. -/
theorem processRevision_hit (user : String) (lo hi : Int) (work_item_id : Nat)
    (s : LoopState) (r : Revision) (cw : ℚ) (h : r.fields.completed_work = some cw)
    (hs : survives user lo hi s.last_completed_work r = true) :
    processRevision user lo hi work_item_id s r =
      { sums := addDiff s.sums r.fields.changed_date.date_naive (cw - s.last_completed_work),
        out := s.out ++
          (if s.printed_header then [] else
            [OutRec.header work_item_id (r.fields.title.getD ( ""))]) ++
          [OutRec.detail r.fields.changed_date.date_naive r.fields.changed_by cw
            (cw - s.last_completed_work)],
        printed_header := true,
        last_completed_work := cw } := by
  obtain ⟨h1, h2, h3, h4⟩ := (survives_iff user lo hi s.last_completed_work r cw h).mp hs
  by_cases hp : s.printed_header
  · simp [processRevision, h, h1, h2, hp, not_or, not_lt, h3, h4]
  · simp [processRevision, h, h1, h2, hp, not_or, not_lt, h3, h4]

/-- Folding an empty revision list is the identity. -/
theorem processRevs_nil (user : String) (lo hi : Int) (work_item_id : Nat) (s : LoopState) :
    processRevs user lo hi work_item_id s [] = s := rfl

/-- Folding a cons processes the head first. -/
theorem processRevs_cons (user : String) (lo hi : Int) (work_item_id : Nat) (s : LoopState)
    (r : Revision) (l : List Revision) :
    processRevs user lo hi work_item_id s (r :: l) =
      processRevs user lo hi work_item_id (processRevision user lo hi work_item_id s r) l := rfl

/-- The baseline after the loop is the last present completed-work value,
independently of the filters. -/
theorem processRevs_last (user : String) (lo hi : Int) (work_item_id : Nat)
    (l : List Revision) : ∀ s : LoopState,
    (processRevs user lo hi work_item_id s l).last_completed_work =
      lastPresentFrom s.last_completed_work l := by
  induction l with
  | nil => intro s; rfl
  | cons r l ih =>
    intro s
    rw [processRevs_cons]
    cases hc : r.fields.completed_work with
    | none =>
      rw [processRevision_none user lo hi work_item_id s r hc, ih]
      simp [lastPresentFrom, nextLast, hc]
    | some cw =>
      by_cases hs : survives user lo hi s.last_completed_work r = true
      · rw [processRevision_hit user lo hi work_item_id s r cw hc hs, ih]
        simp [lastPresentFrom, nextLast, hc]
      · rw [processRevision_skip user lo hi work_item_id s r cw hc
          (by simpa using hs), ih]
        simp [lastPresentFrom, nextLast, hc]

/-- Summing the unfiltered diffs telescopes from any starting baseline. -/
theorem unfilteredDeltas_sum (l : List Revision) :
    ∀ b : ℚ, (unfilteredDeltas b l).sum = lastPresentFrom b l - b := by
  induction l with
  | nil => intro b; simp [unfilteredDeltas, lastPresentFrom]
  | cons r l ih =>
    intro b
    cases hc : r.fields.completed_work with
    | none =>
      simp only [unfilteredDeltas, hc]
      rw [ih b]
      simp [lastPresentFrom, nextLast, hc]
    | some cw =>
      by_cases hz : cw - b = 0
      · have hcb : cw = b := by linarith [hz]
        simp only [unfilteredDeltas, hc, if_pos hz]
        rw [ih cw]
        simp [lastPresentFrom, nextLast, hc, hcb]
      · simp only [unfilteredDeltas, hc, if_neg hz, List.sum_cons]
        rw [ih cw]
        simp only [lastPresentFrom, nextLast, hc, List.foldl_cons, Option.getD_some]
        ring

/-- Appending a possibly-empty block followed by one record never leaves a
list unchanged. -/
theorem append_snoc_ne {α : Type} (o l : List α) (x : α) : o ++ l ++ [x] ≠ o := by
  intro hcontra
  have h2 := congrArg List.length hcontra
  simp [List.length_append] at h2

/-- The filter chain evaluates to false when some condition of the chain
fails. -/
theorem survives_eq_false (user : String) (lo hi : Int) (last : ℚ) (r : Revision) (cw : ℚ)
    (h : r.fields.completed_work = some cw)
    (hn : ¬(cw - last ≠ 0 ∧ r.fields.changed_by.email = user ∧
      lo ≤ r.fields.changed_date.date_naive ∧ r.fields.changed_date.date_naive ≤ hi)) :
    survives user lo hi last r = false := by
  cases hsv : survives user lo hi last r with
  | false => rfl
  | true => exact absurd ((survives_iff user lo hi last r cw h).mp hsv) hn

/-- C1: after processing any prefix of the revision sequence from a fresh
per-item state, the running baseline last_completed_work equals the
completed-work value of the most recent revision of that prefix carrying
one, or 0 if none does; the result does not depend on the target user, the
window bounds, the sums map, the transcript or the header flag, so no
filtering decision ever alters the baseline observed later. -/
theorem baseline_before_filter (user : String) (lo hi : Int) (work_item_id : Nat)
    (sums0 : SumsMap) (out0 : List OutRec) (ph : Bool) (l : List Revision) :
    (processRevs user lo hi work_item_id ⟨sums0, out0, ph, 0⟩ l).last_completed_work =
      lastPresentFrom 0 l :=
  processRevs_last user lo hi work_item_id l ⟨sums0, out0, ph, 0⟩

/-- C2: the sum of all diffs computed over revisions carrying a
completed-work value, ignoring the author and date filters and discarding
zero diffs, telescopes to the last present completed-work value minus the
initial baseline 0. -/
theorem deltas_telescope (l : List Revision) :
    (unfilteredDeltas 0 l).sum = lastPresentFrom 0 l - 0 :=
  unfilteredDeltas_sum l 0

/-- C6: a revision carrying a completed-work value whose diff against the
running baseline is zero is discarded with no attribution and no output,
the baseline having already been updated to that value; the discard
happens before the author and date-window checks, so the outcome does not
depend on the target user or the window at all. -/
theorem zero_delta_discard (user : String) (lo hi : Int) (work_item_id : Nat)
    (s : LoopState) (r : Revision) (cw : ℚ)
    (h : r.fields.completed_work = some cw) (hz : cw - s.last_completed_work = 0) :
    processRevision user lo hi work_item_id s r = { s with last_completed_work := cw } ∧
    (processRevision user lo hi work_item_id s r).sums = s.sums ∧
    (processRevision user lo hi work_item_id s r).out = s.out ∧
    ∀ (user' : String) (lo' hi' : Int) (id' : Nat),
      processRevision user' lo' hi' id' s r = processRevision user lo hi work_item_id s r := by
  have hmain : ∀ (u' : String) (l' h' : Int) (i' : Nat),
      processRevision u' l' h' i' s r = { s with last_completed_work := cw } := by
    intro u' l' h' i'
    simp [processRevision, h, hz]
  refine ⟨hmain user lo hi work_item_id, ?_, ?_, ?_⟩
  · rw [hmain user lo hi work_item_id]
  · rw [hmain user lo hi work_item_id]
  · intro u' l' h' i'
    rw [hmain u' l' h' i', hmain user lo hi work_item_id]

/-- C6 witness: a concrete zero-diff revision is a no-op apart from the
baseline write. -/
theorem zero_delta_discard_witness :
    processRevision ("ada@example.com") 0 10 7 s5 revZero =
      { s5 with last_completed_work := 5 } :=
  (zero_delta_discard ("ada@example.com") 0 10 7 s5 revZero 5 rfl (by norm_num [s5])).1

/-- C5: for a revision carrying a completed-work value with nonzero diff
and matching author, output is produced exactly when the calendar date
obtained by truncating the snapshot timestamp lies between the window
bounds, both inclusive; when it does, the diff is accumulated at that
date; and the time-of-day component of the timestamp plays no role. -/
theorem date_attribution (user : String) (lo hi : Int) (work_item_id : Nat)
    (s : LoopState) (r : Revision) (cw : ℚ)
    (h : r.fields.completed_work = some cw)
    (hd : cw - s.last_completed_work ≠ 0)
    (ha : r.fields.changed_by.email = user) :
    ((processRevision user lo hi work_item_id s r).out ≠ s.out ↔
      (lo ≤ r.fields.changed_date.date_naive ∧ r.fields.changed_date.date_naive ≤ hi)) ∧
    (lo ≤ r.fields.changed_date.date_naive → r.fields.changed_date.date_naive ≤ hi →
      (processRevision user lo hi work_item_id s r).sums =
        addDiff s.sums r.fields.changed_date.date_naive (cw - s.last_completed_work)) ∧
    (∀ tod : Nat,
      processRevision user lo hi work_item_id s
        { r with fields := { r.fields with
            changed_date := ⟨r.fields.changed_date.date, tod⟩ } } =
      processRevision user lo hi work_item_id s r) := by
  refine ⟨?_, ?_, fun tod => rfl⟩
  · constructor
    · intro hne
      by_contra hw
      have hs : survives user lo hi s.last_completed_work r = false :=
        survives_eq_false user lo hi s.last_completed_work r cw h
          (fun hall => hw ⟨hall.2.2.1, hall.2.2.2⟩)
      rw [processRevision_skip user lo hi work_item_id s r cw h hs] at hne
      exact hne rfl
    · intro hw
      have hs : survives user lo hi s.last_completed_work r = true :=
        (survives_iff user lo hi s.last_completed_work r cw h).mpr ⟨hd, ha, hw.1, hw.2⟩
      rw [processRevision_hit user lo hi work_item_id s r cw h hs]
      exact append_snoc_ne s.out _ _
  · intro h3 h4
    have hs : survives user lo hi s.last_completed_work r = true :=
      (survives_iff user lo hi s.last_completed_work r cw h).mpr ⟨hd, ha, h3, h4⟩
    rw [processRevision_hit user lo hi work_item_id s r cw h hs]

/-- C5 witness: a concrete surviving revision is accumulated at its
truncated date. -/
theorem date_attribution_witness :
    (processRevision ("ada@example.com") 0 10 7 s0 revA).sums =
      addDiff s0.sums 3 (5 - s0.last_completed_work) :=
  (date_attribution ("ada@example.com") 0 10 7 s0 revA 5 rfl
    (by norm_num [s0]) rfl).2.1 (by decide) (by decide)

/-- C7: for a revision carrying a completed-work value with nonzero diff
and in-window date, output is produced exactly when the author email (the
unique contact handle) is string-equal to the target user; and replacing
the display name and the stable identifier of the author changes neither
the accumulated sums, nor the baseline, nor whether output is produced. -/
theorem author_matching (user : String) (lo hi : Int) (work_item_id : Nat)
    (s : LoopState) (r : Revision) (cw : ℚ)
    (h : r.fields.completed_work = some cw)
    (hd : cw - s.last_completed_work ≠ 0)
    (h3 : lo ≤ r.fields.changed_date.date_naive)
    (h4 : r.fields.changed_date.date_naive ≤ hi) :
    ((processRevision user lo hi work_item_id s r).out ≠ s.out ↔
      r.fields.changed_by.email = user) ∧
    (∀ (nm uid : String),
      ((processRevision user lo hi work_item_id s
          { r with fields := { r.fields with
              changed_by := ⟨uid, nm, r.fields.changed_by.email⟩ } }).sums =
        (processRevision user lo hi work_item_id s r).sums) ∧
      ((processRevision user lo hi work_item_id s
          { r with fields := { r.fields with
              changed_by := ⟨uid, nm, r.fields.changed_by.email⟩ } }).last_completed_work =
        (processRevision user lo hi work_item_id s r).last_completed_work) ∧
      ((processRevision user lo hi work_item_id s
          { r with fields := { r.fields with
              changed_by := ⟨uid, nm, r.fields.changed_by.email⟩ } }).out ≠ s.out ↔
        (processRevision user lo hi work_item_id s r).out ≠ s.out)) := by
  by_cases ha : r.fields.changed_by.email = user
  · have hs : survives user lo hi s.last_completed_work r = true :=
      (survives_iff user lo hi s.last_completed_work r cw h).mpr ⟨hd, ha, h3, h4⟩
    constructor
    · refine ⟨fun _ => ha, fun _ => ?_⟩
      rw [processRevision_hit user lo hi work_item_id s r cw h hs]
      exact append_snoc_ne s.out _ _
    · intro nm uid
      rw [processRevision_hit user lo hi work_item_id s
          { r with fields := { r.fields with
              changed_by := ⟨uid, nm, r.fields.changed_by.email⟩ } } cw h hs,
        processRevision_hit user lo hi work_item_id s r cw h hs]
      refine ⟨rfl, rfl, ?_⟩
      constructor
      · intro _
        exact append_snoc_ne s.out _ _
      · intro _
        exact append_snoc_ne s.out _ _
  · have hs : survives user lo hi s.last_completed_work r = false :=
      survives_eq_false user lo hi s.last_completed_work r cw h
        (fun hall => ha hall.2.1)
    constructor
    · rw [processRevision_skip user lo hi work_item_id s r cw h hs]
      exact ⟨fun hne => absurd rfl hne, fun hu => absurd hu ha⟩
    · intro nm uid
      rw [processRevision_skip user lo hi work_item_id s
          { r with fields := { r.fields with
              changed_by := ⟨uid, nm, r.fields.changed_by.email⟩ } } cw h hs,
        processRevision_skip user lo hi work_item_id s r cw h hs]
      exact ⟨rfl, rfl, Iff.rfl⟩

/-- C7 witness: a concrete author mismatch produces no output, and a
matching one does. -/
theorem author_matching_witness :
    ¬((processRevision ("ada@example.com") 0 10 7 s0 revC).out ≠ s0.out) :=
  fun hne =>
    absurd ((author_matching ("ada@example.com") 0 10 7 s0 revC 2 rfl
      (by norm_num [s0]) (by decide) (by decide)).1.mp hne) (by decide)

/-- C10: a surviving revision whose diff is negative is attributed like
any other, its diff being added at its date or creating that entry with a
negative value; concretely, a downward correction leaves a negative total
in the final mapping. -/
theorem negative_attribution :
    (∀ (user : String) (lo hi : Int) (work_item_id : Nat) (s : LoopState)
      (r : Revision) (cw : ℚ),
      r.fields.completed_work = some cw →
      cw - s.last_completed_work ≠ 0 →
      r.fields.changed_by.email = user →
      lo ≤ r.fields.changed_date.date_naive →
      r.fields.changed_date.date_naive ≤ hi →
      (processRevision user lo hi work_item_id s r).sums =
        addDiff s.sums r.fields.changed_date.date_naive (cw - s.last_completed_work)) ∧
    (processAll ("ada@example.com") 0 10 [(7, [revA, revB])]).1 = [(3, 5), (4, -2)] := by
  constructor
  · intro user lo hi work_item_id s r cw h hd ha h3 h4
    have hs : survives user lo hi s.last_completed_work r = true :=
      (survives_iff user lo hi s.last_completed_work r cw h).mpr ⟨hd, ha, h3, h4⟩
    rw [processRevision_hit user lo hi work_item_id s r cw h hs]
  · norm_num [processAll, processItem, processRevs, processRevision, revA, revB,
      mkRevision, ada, addDiff, DateTimeUtc.date_naive]

/-- C10 witness: a concrete negative diff is added to the map like any
other diff. -/
theorem negative_attribution_witness :
    (processRevision ("ada@example.com") 0 10 7 s5 revB).sums =
      addDiff s5.sums 4 (3 - s5.last_completed_work) :=
  negative_attribution.1 ("ada@example.com") 0 10 7 s5 revB 3 rfl
    (by norm_num [s5]) rfl (by decide) (by decide)

/-- Once the header is printed, the loop appends only detail lines. -/
theorem processRevs_after_header (user : String) (lo hi : Int) (work_item_id : Nat)
    (l : List Revision) : ∀ s : LoopState, s.printed_header = true →
    ∃ ds, (processRevs user lo hi work_item_id s l).out = s.out ++ ds ∧
      (∀ x ∈ ds, x.isDetail = true) ∧
      (processRevs user lo hi work_item_id s l).printed_header = true := by
  induction l with
  | nil =>
    intro s hp
    exact ⟨[], by simp [processRevs_nil], fun x hx => absurd hx (List.not_mem_nil x),
      by rw [processRevs_nil]; exact hp⟩
  | cons r l ih =>
    intro s hp
    rw [processRevs_cons]
    cases hc : r.fields.completed_work with
    | none =>
      rw [processRevision_none user lo hi work_item_id s r hc]
      exact ih s hp
    | some cw =>
      by_cases hs : survives user lo hi s.last_completed_work r = true
      · have hstep := processRevision_hit user lo hi work_item_id s r cw hc hs
        obtain ⟨ds, hout, hdet, hph⟩ :=
          ih (processRevision user lo hi work_item_id s r) (by rw [hstep])
        refine ⟨OutRec.detail r.fields.changed_date.date_naive r.fields.changed_by cw
          (cw - s.last_completed_work) :: ds, ?_, ?_, hph⟩
        · rw [hout, hstep]; simp [hp]
        · intro x hx
          rcases List.mem_cons.mp hx with hx | hx
          · simp [hx, OutRec.isDetail]
          · exact hdet x hx
      · rw [processRevision_skip user lo hi work_item_id s r cw hc (by simpa using hs)]
        exact ih _ hp

/-- Without any surviving revision, the loop changes nothing but the
baseline. -/
theorem processRevs_no_survivor (user : String) (lo hi : Int) (work_item_id : Nat)
    (l : List Revision) : ∀ s : LoopState,
    anySurvivor user lo hi s.last_completed_work l = false →
    (processRevs user lo hi work_item_id s l).out = s.out ∧
    (processRevs user lo hi work_item_id s l).sums = s.sums ∧
    (processRevs user lo hi work_item_id s l).printed_header = s.printed_header := by
  induction l with
  | nil => intro s _; exact ⟨rfl, rfl, rfl⟩
  | cons r l ih =>
    intro s hno
    rw [anySurvivor, Bool.or_eq_false_iff] at hno
    rw [processRevs_cons]
    cases hc : r.fields.completed_work with
    | none =>
      rw [processRevision_none user lo hi work_item_id s r hc]
      exact ih s (by simpa [nextLast, hc] using hno.2)
    | some cw =>
      rw [processRevision_skip user lo hi work_item_id s r cw hc hno.1]
      exact ih _ (by simpa [nextLast, hc] using hno.2)

/-- With at least one surviving revision and a fresh header flag, the
transcript grows by exactly one header followed by at least one detail
line and nothing else. -/
theorem processRevs_survivor (user : String) (lo hi : Int) (work_item_id : Nat)
    (l : List Revision) : ∀ s : LoopState, s.printed_header = false →
    anySurvivor user lo hi s.last_completed_work l = true →
    ∃ r ds, firstSurvivor user lo hi s.last_completed_work l = some r ∧
      (processRevs user lo hi work_item_id s l).out =
        s.out ++ (OutRec.header work_item_id ((r.fields.title).getD ( "")) :: ds) ∧
      ds ≠ [] ∧ ∀ x ∈ ds, x.isDetail = true := by
  induction l with
  | nil => intro s _ hsome; exact absurd hsome (by simp [anySurvivor])
  | cons r l ih =>
    intro s hp hsome
    rw [anySurvivor, Bool.or_eq_true] at hsome
    rw [processRevs_cons]
    by_cases hs : survives user lo hi s.last_completed_work r = true
    · cases hc : r.fields.completed_work with
      | none => exact absurd hs (by simp [survives, hc])
      | some cw =>
        have hstep := processRevision_hit user lo hi work_item_id s r cw hc hs
        obtain ⟨ds, hout, hdet, _⟩ :=
          processRevs_after_header user lo hi work_item_id l
            (processRevision user lo hi work_item_id s r) (by rw [hstep])
        refine ⟨r, OutRec.detail r.fields.changed_date.date_naive
          r.fields.changed_by cw (cw - s.last_completed_work) :: ds,
          by simp [firstSurvivor, hs], ?_, by simp, ?_⟩
        · rw [hout, hstep]; simp [hp]
        · intro x hx
          rcases List.mem_cons.mp hx with hx | hx
          · simp [hx, OutRec.isDetail]
          · exact hdet x hx
    · have hrest : anySurvivor user lo hi (nextLast s.last_completed_work r) l = true := by
        rcases hsome with hsome | hsome
        · exact absurd hsome hs
        · exact hsome
      have hfs : firstSurvivor user lo hi s.last_completed_work (r :: l) =
          firstSurvivor user lo hi (nextLast s.last_completed_work r) l := by
        simp [firstSurvivor, hs]
      cases hc : r.fields.completed_work with
      | none =>
        rw [processRevision_none user lo hi work_item_id s r hc]
        obtain ⟨r2, ds, hfs2, hout, hne, hdet⟩ :=
          ih s hp (by simpa [nextLast, hc] using hrest)
        refine ⟨r2, ds, ?_, hout, hne, hdet⟩
        rw [hfs]
        simpa [nextLast, hc] using hfs2
      | some cw =>
        rw [processRevision_skip user lo hi work_item_id s r cw hc (by simpa using hs)]
        obtain ⟨r2, ds, hfs2, hout, hne, hdet⟩ :=
          ih { s with last_completed_work := cw } hp (by simpa [nextLast, hc] using hrest)
        refine ⟨r2, ds, ?_, hout, hne, hdet⟩
        rw [hfs]
        simpa [nextLast, hc] using hfs2

/-- C8 amended: from a fresh per-item state, a work item with no
surviving revision emits nothing and leaves the daily totals untouched,
while a work item with at least one surviving revision emits exactly one
header record first, followed only by detail lines, at least one; the
header carries the work-item identifier and the first surviving revision
title, or the empty string when that revision carries none; and a
parse-ok work item always yields a success, never an error, in the batch
loop. -/
theorem header_emission (user : String) (lo hi : Int) (work_item_id : Nat)
    (sums0 : SumsMap) (revs : List Revision) :
    (anySurvivor user lo hi 0 revs = false →
      (processRevs user lo hi work_item_id ⟨sums0, [], false, 0⟩ revs).out = [] ∧
      (processRevs user lo hi work_item_id ⟨sums0, [], false, 0⟩ revs).sums = sums0) ∧
    (anySurvivor user lo hi 0 revs = true →
      ∃ r ds, firstSurvivor user lo hi 0 revs = some r ∧
        (processRevs user lo hi work_item_id ⟨sums0, [], false, 0⟩ revs).out =
          OutRec.header work_item_id ((r.fields.title).getD ( "")) :: ds ∧
        ds ≠ [] ∧ ∀ x ∈ ds, x.isDetail = true) ∧
    (∀ raws : List RawRevision, parseRevisions raws = Except.ok revs →
      (processBatch user lo hi [(work_item_id, raws)] sums0 []).2 =
        Except.ok ((processRevs user lo hi work_item_id ⟨sums0, [], false, 0⟩ revs).sums,
          (processRevs user lo hi work_item_id ⟨sums0, [], false, 0⟩ revs).out)) := by
  refine ⟨?_, ?_, ?_⟩
  · intro hno
    obtain ⟨hout, hsums, _⟩ :=
      processRevs_no_survivor user lo hi work_item_id revs ⟨sums0, [], false, 0⟩ hno
    exact ⟨hout, hsums⟩
  · intro hyes
    obtain ⟨r, ds, hfs, hout, hne, hdet⟩ :=
      processRevs_survivor user lo hi work_item_id revs ⟨sums0, [], false, 0⟩ rfl hyes
    exact ⟨r, ds, hfs, by simpa using hout, hne, hdet⟩
  · intro raws hpr
    simp [processBatch, hpr]

/-- C8 counterexample: the header does not carry the most recent known
title: with a first revision carrying title Task T but no completed work
and a second, surviving revision carrying completed work but no title,
the emitted header carries the empty string, while the most recent known
title of the sequence is Task T. -/
theorem header_title_counterexample :
    (processRevs ("ada@example.com") 0 10 7 ⟨[], [], false, 0⟩ [rT1, rT2]).out =
      [OutRec.header 7 ( ""), OutRec.detail 4 ada 5 5] ∧
    mostRecentKnownTitle [rT1, rT2] = some ("Task T") ∧
    (( "" : String) ≠ ("Task T")) := by
  refine ⟨?_, rfl, by decide⟩
  norm_num [processRevs, processRevision, rT1, rT2, mkRevision, ada, addDiff,
    DateTimeUtc.date_naive]

/-- C8 witness: a concrete work item whose only revision is filtered out
emits nothing and leaves the totals untouched. -/
theorem header_emission_witness :
    (processRevs ("ada@example.com") 0 10 7 ⟨[], [], false, 0⟩ [revC]).out = [] ∧
    (processRevs ("ada@example.com") 0 10 7 ⟨[], [], false, 0⟩ [revC]).sums = [] :=
  (header_emission ("ada@example.com") 0 10 7 [] [revC]).1
    (by
      norm_num [anySurvivor, survives, revC, mkRevision, bob, nextLast,
        DateTimeUtc.date_naive]
      decide)

/-- Two entry-and-add operations on the sums map commute. -/
theorem addDiff_comm (d1 d2 : Int) (q1 q2 : ℚ) :
    ∀ m : SumsMap, addDiff (addDiff m d1 q1) d2 q2 = addDiff (addDiff m d2 q2) d1 q1 := by
  intro m
  induction m with
  | nil =>
    rcases lt_trichotomy d1 d2 with h | rfl | h
    · simp [addDiff, h, lt_asymm h, h.ne, h.ne']
    · simp [addDiff, lt_irrefl, add_comm]
    · simp [addDiff, h, lt_asymm h, h.ne, h.ne']
  | cons hd tl ih =>
    obtain ⟨d, v⟩ := hd
    rcases lt_trichotomy d1 d with h1 | rfl | h1
    · rcases lt_trichotomy d2 d with h2 | rfl | h2
      · rcases lt_trichotomy d1 d2 with h3 | rfl | h3
        · simp [addDiff, h1, h2, h3, lt_asymm h1, lt_asymm h2, lt_asymm h3,
            h1.ne, h1.ne', h2.ne, h2.ne', h3.ne, h3.ne']
        · simp [addDiff, h1, lt_irrefl, add_comm]
        · simp [addDiff, h1, h2, h3, lt_asymm h1, lt_asymm h2, lt_asymm h3,
            h1.ne, h1.ne', h2.ne, h2.ne', h3.ne, h3.ne']
      · simp [addDiff, h1, lt_asymm h1, h1.ne, h1.ne', lt_irrefl]
      · have h3 : d1 < d2 := h1.trans h2
        simp [addDiff, h1, h2, h3, lt_asymm h1, lt_asymm h2, lt_asymm h3,
          h1.ne, h1.ne', h2.ne, h2.ne', h3.ne, h3.ne']
    · rcases lt_trichotomy d2 d1 with h2 | rfl | h2
      · simp [addDiff, h2, lt_asymm h2, h2.ne, h2.ne', lt_irrefl]
      · simp [addDiff, lt_irrefl, add_right_comm]
      · simp [addDiff, h2, lt_asymm h2, h2.ne, h2.ne', lt_irrefl]
    · rcases lt_trichotomy d2 d with h2 | rfl | h2
      · have h3 : d2 < d1 := h2.trans h1
        simp [addDiff, h1, h2, h3, lt_asymm h1, lt_asymm h2, lt_asymm h3,
          h1.ne, h1.ne', h2.ne, h2.ne', h3.ne, h3.ne']
      · simp [addDiff, h1, lt_asymm h1, h1.ne, h1.ne', lt_irrefl]
      · simp [addDiff, h1, h2, lt_asymm h1, lt_asymm h2,
          h1.ne, h1.ne', h2.ne, h2.ne', ih]

/-- An entry-and-add slides over a block of contributions. -/
theorem applyAdds_addDiff (d : Int) (q : ℚ) :
    ∀ (ps : List (Int × ℚ)) (m : SumsMap),
      applyAdds (addDiff m d q) ps = addDiff (applyAdds m ps) d q := by
  intro ps
  induction ps with
  | nil => intro m; rfl
  | cons p t ih =>
    intro m
    have e1 : applyAdds (addDiff m d q) (p :: t) =
        applyAdds (addDiff (addDiff m d q) p.1 p.2) t := rfl
    rw [e1, addDiff_comm d p.1 q p.2 m, ih]
    rfl

/-- Two blocks of contributions applied to the sums map commute. -/
theorem applyAdds_comm :
    ∀ (l1 l2 : List (Int × ℚ)) (m : SumsMap),
      applyAdds (applyAdds m l1) l2 = applyAdds (applyAdds m l2) l1 := by
  intro l1
  induction l1 with
  | nil => intro l2 m; rfl
  | cons p t ih =>
    intro l2 m
    calc applyAdds (applyAdds m (p :: t)) l2
        = applyAdds (applyAdds (addDiff m p.1 p.2) t) l2 := rfl
      _ = applyAdds (applyAdds (addDiff m p.1 p.2) l2) t := ih l2 _
      _ = applyAdds (addDiff (applyAdds m l2) p.1 p.2) t := by
            rw [applyAdds_addDiff p.1 p.2 l2 m]
      _ = applyAdds (applyAdds m l2) (p :: t) := rfl

/-- The sums after the per-item loop are the starting sums with the
contributions of the surviving revisions applied in order. -/
theorem processRevs_sums (user : String) (lo hi : Int) (work_item_id : Nat)
    (l : List Revision) : ∀ s : LoopState,
    (processRevs user lo hi work_item_id s l).sums =
      applyAdds s.sums (contribs user lo hi s.last_completed_work l) := by
  induction l with
  | nil => intro s; rfl
  | cons r l ih =>
    intro s
    rw [processRevs_cons]
    cases hc : r.fields.completed_work with
    | none =>
      rw [processRevision_none user lo hi work_item_id s r hc, ih]
      simp [contribs, hc]
    | some cw =>
      by_cases hs : survives user lo hi s.last_completed_work r = true
      · have hstep := processRevision_hit user lo hi work_item_id s r cw hc hs
        rw [ih (processRevision user lo hi work_item_id s r), hstep]
        simp only [contribs, hc, hs, if_pos]
        rfl
      · have hstep := processRevision_skip user lo hi work_item_id s r cw hc
          (by simpa using hs)
        rw [ih (processRevision user lo hi work_item_id s r), hstep]
        simp only [contribs, hc]
        rw [if_neg (by simpa using hs)]

/-- The final sums of the outer loop are a fold of per-item contribution
blocks over the starting sums. -/
theorem processAll_sums (user : String) (lo hi : Int) :
    ∀ (items : List (Nat × List Revision)) (acc : SumsMap × List OutRec),
      (items.foldl (processItem user lo hi) acc).1 =
        items.foldl (fun m it => applyAdds m (contribs user lo hi 0 it.2)) acc.1 := by
  intro items
  induction items with
  | nil => intro acc; rfl
  | cons it t ih =>
    intro acc
    simp only [List.foldl_cons]
    rw [ih]
    congr 1
    show (processRevs user lo hi it.1 ⟨acc.1, acc.2, false, 0⟩ it.2).sums = _
    rw [processRevs_sums]

/-- Folding a pairwise-commuting operation is invariant under permutation
of the list. -/
theorem foldl_perm {α β : Type} (g : β → α → β)
    (hg : ∀ (b : β) (a1 a2 : α), g (g b a1) a2 = g (g b a2) a1)
    {l1 l2 : List α} (hp : l1.Perm l2) : ∀ b : β, l1.foldl g b = l2.foldl g b := by
  induction hp with
  | nil => intro b; rfl
  | cons x _ ih => intro b; simp only [List.foldl_cons]; exact ih _
  | swap x y l => intro b; simp only [List.foldl_cons]; rw [hg]
  | trans _ _ ih1 ih2 => intro b; rw [ih1 b, ih2 b]

/-- C9: processing the work items in any order yields identical final
daily totals: contributions for the same calendar date are summed, and the
merge is commutative and associative. -/
theorem merge_perm_invariant (user : String) (lo hi : Int)
    (items1 items2 : List (Nat × List Revision)) (hp : items1.Perm items2) :
    (processAll user lo hi items1).1 = (processAll user lo hi items2).1 := by
  show (items1.foldl (processItem user lo hi) ([], [])).1 =
    (items2.foldl (processItem user lo hi) ([], [])).1
  rw [processAll_sums user lo hi items1 ([], []),
    processAll_sums user lo hi items2 ([], [])]
  exact foldl_perm (fun m it => applyAdds m (contribs user lo hi 0 it.2))
    (fun m a b => applyAdds_comm (contribs user lo hi 0 a.2) (contribs user lo hi 0 b.2) m)
    hp []

/-- C9 witness: swapping two concrete work items leaves the totals
unchanged, and those totals merge both items per date. -/
theorem merge_perm_invariant_witness :
    (processAll ("ada@example.com") 0 10 [(7, [revA]), (8, [revB])]).1 =
      (processAll ("ada@example.com") 0 10 [(8, [revB]), (7, [revA])]).1 ∧
    (processAll ("ada@example.com") 0 10 [(7, [revA]), (8, [revB])]).1 = [(3, 5), (4, 3)] :=
  ⟨merge_perm_invariant ("ada@example.com") 0 10 _ _
      (List.Perm.swap (8, [revB]) (7, [revA]) []),
    by norm_num [processAll, processItem, processRevs, processRevision, revA, revB,
      mkRevision, ada, addDiff, DateTimeUtc.date_naive]⟩

/-- C3 counterexample: one malformed revision in the second work item
turns the whole batch into an error, even though the first work item alone
yields totals and output; the accumulated totals are lost, not preserved. -/
theorem malformed_counterexample :
    (processBatch ("ada@example.com") 0 10 [(1, [rawGood]), (2, [rawBad])] [] []).2 =
      Except.error ("missing field System.ChangedBy") ∧
    (processBatch ("ada@example.com") 0 10 [(1, [rawGood])] [] []).2 =
      Except.ok ([(3, 5)], [OutRec.header 1 ("Task A"), OutRec.detail 3 ada 5 5]) := by
  constructor
  · rfl
  · norm_num [processBatch, parseRevisions, parseRevision, parseFields, rawGood, ada,
      processRevs, processRevision, addDiff, DateTimeUtc.date_naive]

/-- C3 amended: a revision missing a required non-optional field fails
deserialization of its work item revision list, and the error propagates
out of the batch loop immediately: when every work item parses, the batch
succeeds, but when any work item contains a malformed revision, the whole
batch returns an error and no totals at all are reported; a parse fails
exactly when the timestamp or the author is missing. -/
theorem malformed_aborts_batch (user : String) (lo hi : Int) :
    (∀ (items : List (Nat × List RawRevision)) (sums : SumsMap) (out : List OutRec),
      (∀ x ∈ items, ∃ l, parseRevisions x.2 = Except.ok l) →
      ∃ res, (processBatch user lo hi items sums out).2 = Except.ok res) ∧
    (∀ (items : List (Nat × List RawRevision)) (sums : SumsMap) (out : List OutRec),
      (∃ x ∈ items, ∃ e, parseRevisions x.2 = Except.error e) →
      ∃ e, (processBatch user lo hi items sums out).2 = Except.error e) ∧
    (∀ rf : RawFields, (∃ e, parseFields rf = Except.error e) ↔
      (rf.changed_date = none ∨ rf.changed_by = none)) := by
  refine ⟨?_, ?_, ?_⟩
  · intro items
    induction items with
    | nil => intro sums out _; exact ⟨(sums, out), rfl⟩
    | cons x rest ih =>
      intro sums out hall
      obtain ⟨x1, x2⟩ := x
      obtain ⟨l, hl⟩ := hall (x1, x2) (List.mem_cons_self (x1, x2) rest)
      simp only [processBatch, hl]
      exact ih _ _ (fun y hy => hall y (List.mem_cons_of_mem _ hy))
  · intro items
    induction items with
    | nil => intro sums out hex; obtain ⟨y, hy, _⟩ := hex; exact absurd hy (List.not_mem_nil y)
    | cons x rest ih =>
      intro sums out hex
      obtain ⟨y, hy, e, he⟩ := hex
      obtain ⟨x1, x2⟩ := x
      rcases List.mem_cons.mp hy with hyx | hyr
      · subst hyx
        simp only [processBatch, he]
        exact ⟨e, rfl⟩
      · cases hpx : parseRevisions x2 with
        | error e2 =>
          simp only [processBatch, hpx]
          exact ⟨e2, rfl⟩
        | ok l =>
          simp only [processBatch, hpx]
          exact ih _ _ ⟨y, hyr, e, he⟩
  · intro rf
    cases hcd : rf.changed_date <;> cases hcb : rf.changed_by <;>
      simp [parseFields, hcd, hcb]

/-- C3 witness: the concrete mixed batch of the counterexample is
rejected as a whole. -/
theorem malformed_aborts_batch_witness :
    ∃ e, (processBatch ("ada@example.com") 0 10
      [(1, [rawGood]), (2, [rawBad])] [] []).2 = Except.error e :=
  (malformed_aborts_batch ("ada@example.com") 0 10).2.1
    [(1, [rawGood]), (2, [rawBad])] [] []
    ⟨(2, [rawBad]),
      List.mem_cons_of_mem (1, [rawGood]) (List.mem_cons_self (2, [rawBad]) []),
      ("missing field System.ChangedBy"), rfl⟩

/-- Under an inverted window no revision passes the inclusive date
filter. -/
theorem survives_inverted (user : String) (lo hi : Int) (h : hi < lo)
    (b : ℚ) (r : Revision) : survives user lo hi b r = false := by
  cases hc : r.fields.completed_work with
  | none => simp [survives, hc]
  | some cw =>
    exact survives_eq_false user lo hi b r cw hc
      (fun hall => by
        have h3 := hall.2.2.1
        have h4 := hall.2.2.2
        omega)

/-- Under an inverted window no revision of any list survives. -/
theorem anySurvivor_inverted (user : String) (lo hi : Int) (h : hi < lo) :
    ∀ (l : List Revision) (b : ℚ), anySurvivor user lo hi b l = false := by
  intro l
  induction l with
  | nil => intro b; rfl
  | cons r t ih =>
    intro b
    rw [anySurvivor, survives_inverted user lo hi h b r, ih (nextLast b r)]
    rfl

/-- Under an inverted window an all-parse-ok batch succeeds with its sums
and transcript untouched. -/
theorem processBatch_inverted (user : String) (lo hi : Int) (h : hi < lo) :
    ∀ (items : List (Nat × List RawRevision)) (sums : SumsMap) (out : List OutRec),
      (∀ x ∈ items, ∃ l, parseRevisions x.2 = Except.ok l) →
      (processBatch user lo hi items sums out).2 = Except.ok ((sums, out)) := by
  intro items
  induction items with
  | nil => intro sums out _; rfl
  | cons x rest ih =>
    intro sums out hall
    obtain ⟨x1, x2⟩ := x
    obtain ⟨l, hl⟩ := hall (x1, x2) (List.mem_cons_self (x1, x2) rest)
    simp only [processBatch, hl]
    obtain ⟨hout, hsums, _⟩ := processRevs_no_survivor user lo hi x1 l
      ⟨sums, out, false, 0⟩ (anySurvivor_inverted user lo hi h l _)
    rw [hsums, hout]
    exact ih _ _ (fun y hy => hall y (List.mem_cons_of_mem _ hy))

/-- C4 amended: the program never validates the window: the wiql work-item
query is always the first external call issued, with the resolved bounds
as they are; and when the upper bound is before the lower bound the run
(absent fetch or parse failures) still proceeds and succeeds with empty
totals and no output, because the inclusive date filter is unsatisfiable. -/
theorem window_never_validated (argFrom argTo : Option Int) (weekLo weekHi : Int)
    (user : String) (q : List Nat) (hist : Nat → List RawRevision) :
    (runProgram argFrom argTo weekLo weekHi user q hist).1.head? =
      some (ExtCall.wiql (argFrom.getD weekLo) (argTo.getD weekHi)) ∧
    (argTo.getD weekHi < argFrom.getD weekLo →
      (∀ i ∈ q, ∃ l, parseRevisions (hist i) = Except.ok l) →
      (runProgram argFrom argTo weekLo weekHi user q hist).2 = Except.ok (([], []))) := by
  constructor
  · rfl
  · intro hinv hall
    show (processBatch user (argFrom.getD weekLo) (argTo.getD weekHi)
      (q.map (fun i => (i, hist i))) [] []).2 = Except.ok (([], []))
    apply processBatch_inverted user _ _ hinv
    intro x hx
    obtain ⟨i, hi2, rfl⟩ := List.mem_map.mp hx
    exact hall i hi2

/-- C4 counterexample: with an inverted window (upper bound 0 before lower
bound 10) the program does not reject anything: it issues the wiql query
and then the revisions fetch, and terminates successfully with empty
totals. -/
theorem window_counterexample :
    (runProgram (some 10) (some 0) 0 0 ("ada@example.com") [7] exHist).1 =
      [ExtCall.wiql 10 0, ExtCall.revs 7] ∧
    (runProgram (some 10) (some 0) 0 0 ("ada@example.com") [7] exHist).2 =
      Except.ok ([], []) ∧
    ((0 : Int) < 10) := by
  refine ⟨?_, ?_, by norm_num⟩
  · norm_num [runProgram, processBatch, parseRevisions, parseRevision, parseFields,
      exHist, rawGood, ada, processRevs, processRevision, mkRevision, DateTimeUtc.date_naive]
  · norm_num [runProgram, processBatch, parseRevisions, parseRevision, parseFields,
      exHist, rawGood, ada, processRevs, processRevision, mkRevision, DateTimeUtc.date_naive]

/-- C4 witness: a concrete inverted-window run issues the query and
succeeds with empty totals. -/
theorem window_never_validated_witness :
    (runProgram (some 5) (some 1) 0 0 ("ada@example.com") [3] exHist).2 =
      Except.ok (([], [])) :=
  (window_never_validated (some 5) (some 1) 0 0 ("ada@example.com") [3] exHist).2
    (by norm_num) (fun i _ => ⟨_, rfl⟩)

end Devops
